import Mathlib

/-!
Verification of the Nautilus peer-discovery and secure-channel toolkit.

This file gives a shallow embedding, in Lean, of the parts of the code base
that the specification's claims are about:

* `security/data_encryption/src/encryption/aes_symmetric.rs` — the framed
  AEAD stream codec (`encrypt_stream` / `decrypt_stream` / `increment_nonce`);
* `protocols/mdns/src/behaviour/mdns_service.rs` — the mDNS service
  (back-off controller, registry updates, query debouncing,
  `extract_service_type`);
* `protocols/tls/src/handshake.rs` — the `HelloStep` role-negotiation state
  machine.

Bytes are modelled as `Nat` with an explicit `% 256` where the Rust code
wraps, machine integers as `Nat` with explicit `% 2 ^ 64` where `u64`
arithmetic can wrap, and Rust strings as Lean `String`.  The registry type
(`records.rs`) is not among the provided sources, so its operations are
modelled from the specification's description (upsert-by-id maps); those
definitions are marked `Modelled from the spec:` in their doc comments.
The AES-256-GCM primitive lives in an external crate; the stream codec is
therefore parameterised by an abstract AEAD cipher with the interface the
spec assumes (32-byte key, 12-byte nonce, 16-byte tag appended).
-/

namespace Nautilus

/- ======================================================================
   AEAD stream codec (aes_symmetric.rs)
   ====================================================================== -/

/-- Embeds `Aes256GcmEncryption::increment_nonce` acting on the *reversed*
byte list: the Rust code iterates `nonce.iter_mut().rev()`, so the last byte
of the nonce is incremented first (wrapping at 256) and the carry propagates
toward the first byte, stopping at the first byte that does not wrap to 0.
This helper performs that add-with-carry on the head of a list. -/
def incrementCarry : List Nat → List Nat
  | [] => []
  | b :: rest =>
    let b2 := (b + 1) % 256
    if b2 = 0 then b2 :: incrementCarry rest else b2 :: rest

/-- Embeds `Aes256GcmEncryption::increment_nonce`: add 1 with carry starting
from the **last** byte (the Rust loop runs over `.rev()`). -/
def increment_nonce (nonce : List Nat) : List Nat :=
  (incrementCarry nonce.reverse).reverse

/-- The increment as the specification words it (little-endian: byte 0 is
incremented first, carries move toward byte 11).  This definition follows
the spec's words, for comparison against `increment_nonce`, which follows
the source. -/
def leIncrementNonce (nonce : List Nat) : List Nat :=
  incrementCarry nonce

/-- Little-endian value of a byte list. -/
def toNatLE : List Nat → Nat
  | [] => 0
  | b :: t => b + 256 * toNatLE t

/-- Big-endian value of a byte list (byte 0 most significant). -/
def toNatBE (l : List Nat) : Nat := toNatLE l.reverse

/-- The 4-byte big-endian encoding of a `u32` value (`u32::to_be_bytes`). -/
def u32be (n : Nat) : List Nat :=
  [n / 2 ^ 24 % 256, n / 2 ^ 16 % 256, n / 2 ^ 8 % 256, n % 256]

/-- Rust `u32::from_be_bytes` on a 4-byte list. -/
def fromBE4 (l : List Nat) : Nat :=
  match l with
  | [a, b, c, d] => ((a * 256 + b) * 256 + c) * 256 + d
  | _ => 0

/-- Abstract AEAD cipher, the interface the spec assumes of AES-256-GCM:
`enc key nonce plaintext` and `dec key nonce ciphertext`.  The concrete
cipher lives in the external `aes_gcm` crate; theorems take its relevant
properties (round-trip, 16-byte tag appended) as hypotheses. -/
structure AeadCipher where
  enc : List Nat → List Nat → List Nat → List Nat
  dec : List Nat → List Nat → List Nat → Option (List Nat)

/-- Embeds the loop of `Aes256GcmEncryption::encrypt_stream`: read the
plaintext in chunks of at most 1024 bytes; for each chunk write a 4-byte
big-endian length prefix followed by the ciphertext of the chunk under the
current nonce, then increment the nonce; at EOF write a zero length prefix.
The reader is an in-memory byte list, so each `read` fills
`min 1024 remaining` bytes. -/
def encryptChunks (A : AeadCipher) (key nonce pt : List Nat) : List Nat :=
  if h : pt = [] then u32be 0
  else
    let ct := A.enc key nonce (pt.take 1024)
    u32be ct.length ++ ct ++ encryptChunks A key (increment_nonce nonce) (pt.drop 1024)
termination_by pt.length
decreasing_by
  simp only [List.length_drop]
  have : 0 < pt.length := List.length_pos.mpr h
  omega

/-- Embeds `Aes256GcmEncryption::encrypt_stream` including its initial
check that the nonce is 12 bytes (the `try_from` into `[u8; 12]`). -/
def encrypt_stream (A : AeadCipher) (key nonce pt : List Nat) : Option (List Nat) :=
  if nonce.length = 12 then some (encryptChunks A key nonce pt) else none

/-- Embeds the loop of `Aes256GcmEncryption::decrypt_stream`: read a 4-byte
big-endian length prefix (EOF here stops cleanly), stop on a zero length,
otherwise read exactly that many ciphertext bytes (failure if fewer remain),
decrypt under the current nonce, append the plaintext, and continue with the
incremented nonce. -/
def decryptChunks (A : AeadCipher) (key nonce data : List Nat) : Option (List Nat) :=
  if _h4 : data.length < 4 then some []
  else
    let len := fromBE4 (data.take 4)
    if _h0 : len = 0 then some []
    else if _hl : (data.drop 4).length < len then none
    else
      match A.dec key nonce ((data.drop 4).take len) with
      | none => none
      | some p =>
        match decryptChunks A key (increment_nonce nonce) ((data.drop 4).drop len) with
        | none => none
        | some ps => some (p ++ ps)
termination_by data.length
decreasing_by
  simp only [List.length_drop] at *
  omega

/-- Embeds `Aes256GcmEncryption::decrypt_stream` including its initial
12-byte nonce check. -/
def decrypt_stream (A : AeadCipher) (key nonce data : List Nat) : Option (List Nat) :=
  if nonce.length = 12 then decryptChunks A key nonce data else none

/-- The chunking `encrypt_stream` performs on its plaintext: pieces of at
most 1024 bytes, in order. -/
def chunks1024 (pt : List Nat) : List (List Nat) :=
  if h : pt = [] then []
  else pt.take 1024 :: chunks1024 (pt.drop 1024)
termination_by pt.length
decreasing_by
  simp only [List.length_drop]
  have : 0 < pt.length := List.length_pos.mpr h
  omega

/-- The per-chunk ciphertexts of the stream: chunk `i` is encrypted under
the `i`-times-incremented nonce. -/
def streamCiphertexts (A : AeadCipher) (key : List Nat) :
    List Nat → List (List Nat) → List (List Nat)
  | _, [] => []
  | nonce, c :: cs =>
    A.enc key nonce c :: streamCiphertexts A key (increment_nonce nonce) cs

/-- The AEAD stream wire format as the spec states it: repeated frames
`[len : u32 be][ct : len]` terminated by `[len = 0]`. -/
def encodeFrames (cts : List (List Nat)) : List Nat :=
  cts.foldr (fun ct acc => u32be ct.length ++ ct ++ acc) (u32be 0)

/- Arithmetic facts about the nonce increment. -/

theorem incrementCarry_length (l : List Nat) :
    (incrementCarry l).length = l.length := by
  induction l with
  | nil => rfl
  | cons b t ih =>
    simp only [incrementCarry]
    split <;> simp [ih]

theorem increment_nonce_length (l : List Nat) :
    (increment_nonce l).length = l.length := by
  simp [increment_nonce, incrementCarry_length]

theorem incrementCarry_bytes_lt (l : List Nat) (hb : ∀ b ∈ l, b < 256) :
    ∀ b ∈ incrementCarry l, b < 256 := by
  induction l with
  | nil => simp [incrementCarry]
  | cons b t ih =>
    simp only [incrementCarry]
    split
    · intro x hx
      rcases List.mem_cons.mp hx with h | h
      · subst h; omega
      · exact ih (fun y hy => hb y (List.mem_cons_of_mem _ hy)) x h
    · intro x hx
      rcases List.mem_cons.mp hx with h | h
      · subst h; exact Nat.mod_lt _ (by omega)
      · exact hb x (List.mem_cons_of_mem _ h)

theorem increment_nonce_bytes_lt (l : List Nat) (hb : ∀ b ∈ l, b < 256) :
    ∀ b ∈ increment_nonce l, b < 256 := by
  intro b hbmem
  simp only [increment_nonce, List.mem_reverse] at hbmem
  exact incrementCarry_bytes_lt _ (fun y hy => hb y (List.mem_reverse.mp hy)) b hbmem

theorem toNatLE_lt (l : List Nat) (hb : ∀ b ∈ l, b < 256) :
    toNatLE l < 256 ^ l.length := by
  induction l with
  | nil => simp [toNatLE]
  | cons b t ih =>
    have hbt : ∀ x ∈ t, x < 256 := fun x hx => hb x (List.mem_cons_of_mem _ hx)
    have h1 : toNatLE t < 256 ^ t.length := ih hbt
    have h2 : b < 256 := hb b (List.mem_cons_self b t)
    simp only [toNatLE, List.length_cons, pow_succ]
    calc b + 256 * toNatLE t < 256 + 256 * toNatLE t := by omega
      _ = 256 * (toNatLE t + 1) := by ring
      _ ≤ 256 * 256 ^ t.length := Nat.mul_le_mul_left 256 (by omega)
      _ = 256 ^ t.length * 256 := by ring

theorem toNatLE_incrementCarry (l : List Nat) (hb : ∀ b ∈ l, b < 256) :
    toNatLE (incrementCarry l) = (toNatLE l + 1) % 256 ^ l.length := by
  induction l with
  | nil => simp [incrementCarry, toNatLE]
  | cons b t ih =>
    have hbt : ∀ x ∈ t, x < 256 := fun x hx => hb x (List.mem_cons_of_mem _ hx)
    have hblt : b < 256 := hb b (List.mem_cons_self b t)
    have htlt : toNatLE t < 256 ^ t.length := toNatLE_lt t hbt
    simp only [incrementCarry]
    by_cases hwrap : (b + 1) % 256 = 0
    · -- the byte wraps to 0; the carry moves to the tail
      have hb255 : b = 255 := by omega
      subst hb255
      simp only [hwrap, if_pos rfl, toNatLE, List.length_cons, ih hbt]
      have h2 : (255 : Nat) + 256 * toNatLE t + 1 = 256 * (toNatLE t + 1) := by ring
      rw [h2, pow_succ, mul_comm (256 ^ t.length) 256, Nat.mul_mod_mul_left]
      omega
    · -- no wrap: only the first byte changes
      have hlt : b + 1 < 256 := by omega
      have hmod : (b + 1) % 256 = b + 1 := Nat.mod_eq_of_lt hlt
      simp only [hwrap, if_neg hwrap, toNatLE, List.length_cons, hmod]
      have hsmall : b + 1 + 256 * toNatLE t < 256 ^ (t.length + 1) := by
        calc b + 1 + 256 * toNatLE t < 256 * (toNatLE t + 1) := by omega
          _ ≤ 256 * 256 ^ t.length := Nat.mul_le_mul_left 256 (by omega)
          _ = 256 ^ (t.length + 1) := by rw [pow_succ]; ring
      rw [show b + 256 * toNatLE t + 1 = b + 1 + 256 * toNatLE t from by ring,
        Nat.mod_eq_of_lt hsmall]

theorem toNatBE_increment_nonce (l : List Nat) (hb : ∀ b ∈ l, b < 256) :
    toNatBE (increment_nonce l) = (toNatBE l + 1) % 256 ^ l.length := by
  have hrev : ∀ x ∈ l.reverse, x < 256 := fun x hx => hb x (List.mem_reverse.mp hx)
  simp only [toNatBE, increment_nonce, List.reverse_reverse]
  rw [toNatLE_incrementCarry _ hrev, List.length_reverse]

theorem increment_nonce_iterate_length (l : List Nat) (i : Nat) :
    (increment_nonce^[i] l).length = l.length := by
  induction i generalizing l with
  | zero => rfl
  | succ n ih =>
    rw [Function.iterate_succ_apply, ih, increment_nonce_length]

theorem increment_nonce_iterate_bytes_lt (l : List Nat) (i : Nat)
    (hb : ∀ b ∈ l, b < 256) : ∀ b ∈ increment_nonce^[i] l, b < 256 := by
  induction i generalizing l with
  | zero => exact hb
  | succ n ih =>
    rw [Function.iterate_succ_apply]
    exact ih _ (increment_nonce_bytes_lt _ hb)

theorem toNatBE_increment_nonce_iterate (l : List Nat) (i : Nat)
    (hb : ∀ b ∈ l, b < 256) :
    toNatBE (increment_nonce^[i] l) = (toNatBE l + i) % 256 ^ l.length := by
  induction i generalizing l with
  | zero =>
    have : toNatBE l < 256 ^ l.length := by
      have := toNatLE_lt l.reverse (fun x hx => hb x (List.mem_reverse.mp hx))
      simpa [toNatBE, List.length_reverse] using this
    simp [Nat.mod_eq_of_lt this]
  | succ n ih =>
    rw [Function.iterate_succ_apply,
      ih _ (increment_nonce_bytes_lt _ hb), increment_nonce_length,
      toNatBE_increment_nonce _ hb, Nat.mod_add_mod]
    congr 1
    omega

/- Framing facts for the stream codec. -/

theorem fromBE4_u32be (n : Nat) (h : n < 2 ^ 32) : fromBE4 (u32be n) = n := by
  simp only [u32be, fromBE4]
  omega

theorem u32be_length (n : Nat) : (u32be n).length = 4 := rfl

/-- Unfolding `decryptChunks` on one well-formed frame. -/
theorem decryptChunks_frame (A : AeadCipher) (key nonce ct rest : List Nat)
    (hpos : 0 < ct.length) (hlt : ct.length < 2 ^ 32) :
    decryptChunks A key nonce (u32be ct.length ++ (ct ++ rest)) =
      match A.dec key nonce ct with
      | none => none
      | some p =>
        match decryptChunks A key (increment_nonce nonce) rest with
        | none => none
        | some ps => some (p ++ ps) := by
  have hlen4 : (u32be ct.length).length = 4 := rfl
  have htake : (u32be ct.length ++ (ct ++ rest)).take 4 = u32be ct.length :=
    List.take_left' hlen4
  have hdrop : (u32be ct.length ++ (ct ++ rest)).drop 4 = ct ++ rest :=
    List.drop_left' hlen4
  rw [decryptChunks]
  rw [dif_neg (by simp [List.length_append, hlen4])]
  simp only [htake, hdrop, fromBE4_u32be ct.length hlt]
  rw [dif_neg (by omega)]
  rw [dif_neg (by simp [List.length_append])]
  rw [List.take_left, List.drop_left]

/-- Unfolding `decryptChunks` on the terminating zero-length frame. -/
theorem decryptChunks_terminator (A : AeadCipher) (key nonce : List Nat) :
    decryptChunks A key nonce (u32be 0) = some [] := by
  rw [decryptChunks]
  rw [dif_neg (by simp [u32be])]
  rw [dif_pos (by simp [u32be, fromBE4])]

/-- Lemma: `decrypt_stream` inverts `encrypt_stream` chunk by chunk, for any AEAD
cipher whose decryption inverts encryption. -/
theorem decryptChunks_encryptChunks (A : AeadCipher) (key : List Nat)
    (hrt : ∀ k n p, A.dec k n (A.enc k n p) = some p)
    (hlen : ∀ k n p, (A.enc k n p).length = p.length + 16) :
    ∀ (N : Nat) (pt nonce : List Nat), pt.length ≤ N →
      decryptChunks A key nonce (encryptChunks A key nonce pt) = some pt := by
  intro N
  induction N with
  | zero =>
    intro pt nonce h
    have hpt : pt = [] := List.length_eq_zero.mp (Nat.le_zero.mp h)
    subst hpt
    rw [encryptChunks, dif_pos rfl, decryptChunks_terminator]
  | succ N ih =>
    intro pt nonce h
    by_cases hpt : pt = []
    · subst hpt
      rw [encryptChunks, dif_pos rfl, decryptChunks_terminator]
    · have hlen1 : 0 < pt.length := List.length_pos.mpr hpt
      have hct : (A.enc key nonce (pt.take 1024)).length = (pt.take 1024).length + 16 :=
        hlen key nonce (pt.take 1024)
      have htk : (pt.take 1024).length ≤ 1024 := by
        simp [List.length_take]
      have hctpos : 0 < (A.enc key nonce (pt.take 1024)).length := by omega
      have hctlt : (A.enc key nonce (pt.take 1024)).length < 2 ^ 32 := by omega
      rw [encryptChunks, dif_neg hpt]
      rw [List.append_assoc]
      rw [decryptChunks_frame A key nonce _ _ hctpos hctlt]
      rw [hrt key nonce (pt.take 1024)]
      rw [ih (pt.drop 1024) (increment_nonce nonce) (by simp [List.length_drop]; omega)]
      simp [List.take_append_drop]

/-- Lemma: `encryptChunks` produces exactly the spec's framed form: the 1024-byte
chunking of the plaintext, each chunk encrypted under the per-frame nonce,
each frame length-prefixed, and a zero length prefix at the end. -/
theorem encryptChunks_eq_encodeFrames (A : AeadCipher) (key : List Nat) :
    ∀ (N : Nat) (pt nonce : List Nat), pt.length ≤ N →
      encryptChunks A key nonce pt =
        encodeFrames (streamCiphertexts A key nonce (chunks1024 pt)) := by
  intro N
  induction N with
  | zero =>
    intro pt nonce h
    have hpt : pt = [] := List.length_eq_zero.mp (Nat.le_zero.mp h)
    subst hpt
    rw [encryptChunks, dif_pos rfl, chunks1024, dif_pos rfl]
    rfl
  | succ N ih =>
    intro pt nonce h
    by_cases hpt : pt = []
    · subst hpt
      rw [encryptChunks, dif_pos rfl, chunks1024, dif_pos rfl]
      rfl
    · have hlen1 : 0 < pt.length := List.length_pos.mpr hpt
      rw [encryptChunks, dif_neg hpt, chunks1024, dif_neg hpt]
      rw [ih (pt.drop 1024) (increment_nonce nonce) (by simp [List.length_drop]; omega)]
      rfl

theorem chunks1024_chunk_bounds :
    ∀ (N : Nat) (pt : List Nat), pt.length ≤ N →
      ∀ c ∈ chunks1024 pt, 0 < c.length ∧ c.length ≤ 1024 := by
  intro N
  induction N with
  | zero =>
    intro pt h c hc
    have hpt : pt = [] := List.length_eq_zero.mp (Nat.le_zero.mp h)
    subst hpt
    rw [chunks1024, dif_pos rfl] at hc
    simp at hc
  | succ N ih =>
    intro pt h c hc
    by_cases hpt : pt = []
    · subst hpt
      rw [chunks1024, dif_pos rfl] at hc
      simp at hc
    · have hlen1 : 0 < pt.length := List.length_pos.mpr hpt
      rw [chunks1024, dif_neg hpt] at hc
      rcases List.mem_cons.mp hc with h1 | h1
      · subst h1
        constructor
        · simp only [List.length_take]
          omega
        · simp [List.length_take]
      · exact ih (pt.drop 1024) (by simp [List.length_drop]; omega) c h1

/-- C1.  For every plaintext, every 32-byte key and every 12-byte initial
nonce, decrypting the output of `encrypt_stream` with `decrypt_stream`
(same key, same initial nonce, same nonce-increment rule) yields exactly
the original plaintext, and the encrypted form is a sequence of frames,
each a 4-byte big-endian length prefix followed by that many ciphertext
bytes, terminated by a zero length prefix, with every plaintext chunk of
at most 1024 bytes (and non-empty).  The AEAD primitive is abstract; its
round-trip property and 16-byte appended tag are hypotheses, satisfied by
AES-256-GCM. -/
theorem encrypt_stream_decrypt_stream_roundtrip
    (A : AeadCipher) (key nonce pt : List Nat)
    (hkey : key.length = 32) (hnonce : nonce.length = 12)
    (hrt : ∀ k n p, A.dec k n (A.enc k n p) = some p)
    (hlen : ∀ k n p, (A.enc k n p).length = p.length + 16) :
    (encrypt_stream A key nonce pt).bind (decrypt_stream A key nonce) = some pt ∧
    encrypt_stream A key nonce pt =
      some (encodeFrames (streamCiphertexts A key nonce (chunks1024 pt))) ∧
    ∀ c ∈ chunks1024 pt, 0 < c.length ∧ c.length ≤ 1024 := by
  refine ⟨?_, ?_, ?_⟩
  · simp only [encrypt_stream, if_pos hnonce, Option.bind_some, decrypt_stream,
      if_pos hnonce]
    exact decryptChunks_encryptChunks A key hrt hlen pt.length pt nonce le_rfl
  · simp only [encrypt_stream, if_pos hnonce]
    rw [encryptChunks_eq_encodeFrames A key pt.length pt nonce le_rfl]
  · exact chunks1024_chunk_bounds pt.length pt le_rfl

/-- A trivial AEAD cipher satisfying the hypotheses of the round-trip
theorem: it appends a 16-byte tag of zeros and strips it on decryption. -/
def padAead : AeadCipher where
  enc := fun _ _ p => p ++ List.replicate 16 0
  dec := fun _ _ c => some (c.take (c.length - 16))

theorem padAead_roundtrip : ∀ k n p, padAead.dec k n (padAead.enc k n p) = some p := by
  intro k n p
  simp only [padAead, List.length_append, List.length_replicate,
    Nat.add_sub_cancel]
  rw [List.take_left]

theorem padAead_enc_length : ∀ k n p, (padAead.enc k n p).length = p.length + 16 := by
  intro k n p
  simp [padAead]

/-- Witness for C1: the round-trip theorem applied at a concrete key,
nonce, plaintext and cipher. -/
theorem encrypt_stream_decrypt_stream_roundtrip_witness :
    ((List.replicate 32 0 : List Nat).length = 32 ∧
     (List.replicate 12 0 : List Nat).length = 12) ∧
    ((encrypt_stream padAead (List.replicate 32 0) (List.replicate 12 0) [1, 2, 3]).bind
        (decrypt_stream padAead (List.replicate 32 0) (List.replicate 12 0)) =
      some [1, 2, 3] ∧
     encrypt_stream padAead (List.replicate 32 0) (List.replicate 12 0) [1, 2, 3] =
       some (encodeFrames (streamCiphertexts padAead (List.replicate 32 0)
         (List.replicate 12 0) (chunks1024 [1, 2, 3]))) ∧
     ∀ c ∈ chunks1024 [1, 2, 3], 0 < c.length ∧ c.length ≤ 1024) :=
  ⟨⟨by simp, by simp⟩,
    encrypt_stream_decrypt_stream_roundtrip padAead (List.replicate 32 0)
      (List.replicate 12 0) [1, 2, 3] (by simp) (by simp)
      padAead_roundtrip padAead_enc_length⟩

/-- C2 counterexample: the claim says the nonce increment is little-endian
(byte 0 incremented first), but `increment_nonce` on the all-zero nonce
sets byte 11, not byte 0; the spec-worded little-endian increment
`leIncrementNonce` disagrees with the source's `increment_nonce`. -/
theorem increment_nonce_not_little_endian :
    increment_nonce (List.replicate 12 0) = [0, 0, 0, 0, 0, 0, 0, 0, 0, 0, 0, 1] ∧
    leIncrementNonce (List.replicate 12 0) = [1, 0, 0, 0, 0, 0, 0, 0, 0, 0, 0, 0] ∧
    increment_nonce (List.replicate 12 0) ≠ leIncrementNonce (List.replicate 12 0) := by
  refine ⟨by decide, by decide, by decide⟩

/-- C2 (amended).  The per-chunk nonce used by the stream codec for frame
index `i` is `increment_nonce` iterated `i` times on the initial nonce, and
this increment is the **big-endian** 96-bit add-with-carry: byte 11 (the
last byte) is incremented first and carries propagate toward byte 0, so the
big-endian value of the nonce for frame `i` is `initial + i (mod 2^96)`. -/
theorem stream_nonce_is_big_endian_add
    (nonce : List Nat) (i : Nat) (A : AeadCipher) (key : List Nat)
    (cs : List (List Nat))
    (hn : nonce.length = 12) (hb : ∀ b ∈ nonce, b < 256) :
    (streamCiphertexts A key nonce cs).get? i =
      (cs.get? i).map (fun c => A.enc key (increment_nonce^[i] nonce) c) ∧
    toNatBE (increment_nonce^[i] nonce) = (toNatBE nonce + i) % 2 ^ 96 := by
  constructor
  · clear hn hb
    induction i generalizing nonce cs with
    | zero =>
      cases cs with
      | nil => rfl
      | cons c cs => rfl
    | succ n ih =>
      cases cs with
      | nil => rfl
      | cons c cs =>
        simp only [streamCiphertexts, List.get?_cons_succ,
          Function.iterate_succ_apply]
        exact ih (increment_nonce nonce) cs
  · have h := toNatBE_increment_nonce_iterate nonce i hb
    rw [hn] at h
    rw [h]
    norm_num

/-- Witness for C2 (amended): the big-endian nonce progression evaluated at
a concrete nonce, frame index and ciphertext list. -/
theorem stream_nonce_is_big_endian_add_witness :
    ((List.replicate 12 0 : List Nat).length = 12 ∧
      ∀ b ∈ (List.replicate 12 0 : List Nat), b < 256) ∧
    ((streamCiphertexts padAead [] (List.replicate 12 0) [[5], [6], [7]]).get? 2 =
        (([[5], [6], [7]] : List (List Nat)).get? 2).map
          (fun c => padAead.enc [] (increment_nonce^[2] (List.replicate 12 0)) c) ∧
      toNatBE (increment_nonce^[2] (List.replicate 12 0)) =
        (toNatBE (List.replicate 12 0) + 2) % 2 ^ 96) :=
  ⟨⟨by simp, by decide⟩,
    stream_nonce_is_big_endian_add (List.replicate 12 0) 2 padAead [] [[5], [6], [7]]
      (by simp) (by decide)⟩

/- ======================================================================
   Back-off controller (mdns_service.rs: adjust_backoff_state)
   ====================================================================== -/

/-- The back-off states of `behaviour/back_off.rs`. -/
inductive BackoffState
  | Normal
  | Backoff
  | Recovery
  | Stable
deriving DecidableEq

/-- The pair of interval atomics `backoff_interval_advertise` /
`backoff_interval_query` (seconds, `u64`). -/
structure Intervals where
  advertise : Nat
  query : Nat
deriving DecidableEq, Repr

/-- Embeds the `match` of `MdnsService::adjust_backoff_state` before the
final clamp.  The Rust code computes in `f64` and truncates with `as u64`:
`(x as f64 * 1.5).min(60.0) as u64` equals `min (3 * x / 2) 60` and
`(x as f64 / 1.5).max(5.0) as u64` equals `max (2 * x / 3) 5` in natural
division — `1.5 * x` is exact in `f64`, truncation is floor, the order of
`min`/`max` and truncation commutes for integer bounds, and `x / 1.5`
never rounds across an integer boundary (its fractional part is `0`,
`1/3` or `2/3`), for every value far below `2^52`. -/
def backoff_step (s : BackoffState) (iv : Intervals) : Intervals :=
  match s with
  | .Normal => ⟨5, 5⟩
  | .Backoff => ⟨min (3 * iv.advertise / 2) 60, min (3 * iv.query / 2) 60⟩
  | .Recovery => ⟨max (2 * iv.advertise / 3) 5, max (2 * iv.query / 3) 5⟩
  | .Stable => ⟨10, 10⟩

/-- Embeds `MdnsService::adjust_backoff_state`: the state-dependent update
followed by the clamp `if query > 2 * advertise { query := 2 * advertise }`. -/
def adjust_backoff_state (s : BackoffState) (iv : Intervals) : Intervals :=
  let iv2 := backoff_step s iv
  if 2 * iv2.advertise < iv2.query then ⟨iv2.advertise, 2 * iv2.advertise⟩ else iv2

/-- The invariant the spec asserts after every back-off adjustment. -/
def backoffInvariant (iv : Intervals) : Prop :=
  5 ≤ iv.advertise ∧ iv.advertise ≤ 60 ∧ 5 ≤ iv.query ∧ iv.query ≤ 60 ∧
    iv.query ≤ 2 * iv.advertise

theorem backoffInvariant_adjust (s : BackoffState) (iv : Intervals)
    (h : backoffInvariant iv) :
    backoffInvariant (adjust_backoff_state s iv) := by
  obtain ⟨h1, h2, h3, h4, h5⟩ := h
  cases s <;>
    simp only [adjust_backoff_state, backoff_step, backoffInvariant] <;>
    split <;>
    simp_all <;>
    omega

theorem backoffInvariant_foldl (l : List BackoffState) (iv : Intervals)
    (h : backoffInvariant iv) :
    backoffInvariant (l.foldl (fun iv s => adjust_backoff_state s iv) iv) := by
  induction l generalizing iv with
  | nil => exact h
  | cons s l ih =>
    exact ih _ (backoffInvariant_adjust s iv h)

/-- C3.  Starting from the initial intervals `(advertise, query) = (5, 5)`,
after every sequence of `adjust_backoff_state` calls — whatever back-off
state was active at each step — the intervals satisfy
`query ≤ 2 * advertise`, `5 ≤ advertise ≤ 60` and `5 ≤ query ≤ 60`. -/
theorem adjust_backoff_state_invariant (l : List BackoffState) :
    backoffInvariant (l.foldl (fun iv s => adjust_backoff_state s iv) ⟨5, 5⟩) :=
  backoffInvariant_foldl l ⟨5, 5⟩ (by simp [backoffInvariant])

/-- C4 counterexample: in state `Backoff` from intervals `(5, 5)` the code
sets the advertise interval to `7` — the `as u64` cast truncates `7.5` —
while the claim's `min(60, ceil(1.5 · 5))` is `8`. -/
theorem backoff_step_truncates_not_ceils :
    (backoff_step .Backoff ⟨5, 5⟩).advertise = 7 ∧
    min 60 ⌈(3 : ℚ) / 2 * 5⌉₊ = 8 ∧ (7 : Nat) ≠ 8 := by
  have h : ⌈(3 : ℚ) / 2 * 5⌉₊ = 8 := by
    rw [show (3 : ℚ) / 2 * 5 = 15 / 2 by norm_num, Nat.ceil_eq_iff] <;> norm_num
  exact ⟨rfl, by rw [h]; decide, by decide⟩

/-- C4 (amended).  One `adjust_backoff_state` call in state `Backoff` sets
`advertise` to `min(60, floor(1.5 · advertise))` and `query` to
`min(60, floor(1.5 · query))` — floor (the `as u64` truncation), not ceil —
before the `query ≤ 2 · advertise` clamp; one call in state `Recovery` sets
`advertise` to `max(5, floor(advertise / 1.5))` and `query` to
`max(5, floor(query / 1.5))`. -/
theorem backoff_step_floor_formulas (iv : Intervals) :
    backoff_step .Backoff iv =
      ⟨min 60 ⌊(3 : ℚ) / 2 * iv.advertise⌋₊, min 60 ⌊(3 : ℚ) / 2 * iv.query⌋₊⟩ ∧
    backoff_step .Recovery iv =
      ⟨max 5 ⌊(iv.advertise : ℚ) / ((3 : ℚ) / 2)⌋₊,
       max 5 ⌊(iv.query : ℚ) / ((3 : ℚ) / 2)⌋₊⟩ := by
  have hmul : ∀ x : Nat, ⌊(3 : ℚ) / 2 * x⌋₊ = 3 * x / 2 := by
    intro x
    have hx : (3 : ℚ) / 2 * x = ((3 * x : Nat) : ℚ) / ((2 : Nat) : ℚ) := by
      push_cast
      ring
    rw [hx, Nat.floor_div_nat, Nat.floor_natCast]
  have hdiv : ∀ x : Nat, ⌊(x : ℚ) / ((3 : ℚ) / 2)⌋₊ = 2 * x / 3 := by
    intro x
    have hx : (x : ℚ) / ((3 : ℚ) / 2) = ((2 * x : Nat) : ℚ) / ((3 : Nat) : ℚ) := by
      push_cast
      ring
    rw [hx, Nat.floor_div_nat, Nat.floor_natCast]
  constructor
  · simp only [backoff_step, hmul]
    exact congrArg₂ Intervals.mk (min_comm _ _) (min_comm _ _)
  · simp only [backoff_step, hdiv]
    exact congrArg₂ Intervals.mk (max_comm _ _) (max_comm _ _)

/- ======================================================================
   mDNS registry and service operations (mdns_service.rs)
   ====================================================================== -/

/-- Index of the first occurrence of the two-character pattern `"._"` in a
character list (Rust `str::find("._")`; the position is a byte index in
Rust, but the characters at and before the first `"._"` of every name the
service handles are ASCII, and the suffix taken after it is the same list
of characters either way). -/
def find_dot_underscore : List Char → Option Nat
  | [] => none
  | c :: rest =>
    if c = '.' ∧ rest.head? = some '_' then some 0
    else (find_dot_underscore rest).map (· + 1)

/-- Embeds the helper `extract_service_type`: the substring starting
immediately after the first occurrence of `"._"` (so it begins with the
underscore), or the whole string when `"._"` does not occur. -/
def extract_service_type (srv_id : String) : String :=
  match find_dot_underscore srv_id.toList with
  | some pos => String.mk (srv_id.toList.drop (pos + 1))
  | none => srv_id

/-- Rust `str::trim_end_matches('.')`: remove every trailing dot. -/
def trim_end_matches_dot (s : String) : String :=
  String.mk ((s.toList.reverse.dropWhile (fun c => c = '.')).reverse)

/-- Rust `str::trim_start_matches('.')`: remove every leading dot. -/
def trim_start_matches_dot (s : String) : String :=
  String.mk (s.toList.dropWhile (fun c => c = '.'))

/-- The `ServiceRecord` struct of `behaviour/records.rs` (spec §3).  DNS
names are modelled as their display strings. -/
structure ServiceRecord where
  id : String
  service_type : String
  port : Nat
  ttl : Option Nat
  origin : String
  priority : Option Nat
  weight : Option Nat
  node_id : String
deriving DecidableEq, Repr

/-- The `NodeRecord` struct of `behaviour/records.rs` (spec §3). -/
structure NodeRecord where
  id : String
  ip_address : String
  ttl : Option Nat
  services : List String
deriving DecidableEq, Repr

/-- The `MdnsRegistry`: services-by-id and nodes-by-id, modelled as
association lists in insertion order. -/
structure MdnsRegistry where
  services : List ServiceRecord
  nodes : List NodeRecord
deriving DecidableEq, Repr

/-- The registry a fresh `MdnsService` starts from. -/
def emptyRegistry : MdnsRegistry := ⟨[], []⟩

/-- Modelled from the spec: `MdnsRegistry::add_service` (records.rs is not
among the provided sources) — an upsert by `id` (§4.2). -/
def add_service (reg : MdnsRegistry) (s : ServiceRecord) : MdnsRegistry :=
  if reg.services.any (fun t => decide (t.id = s.id)) then
    { reg with services := reg.services.map (fun t => if t.id = s.id then s else t) }
  else
    { reg with services := reg.services ++ [s] }

/-- Modelled from the spec: `MdnsRegistry::add_node` — an upsert by `id`
(§4.2). -/
def add_node (reg : MdnsRegistry) (n : NodeRecord) : MdnsRegistry :=
  if reg.nodes.any (fun t => decide (t.id = n.id)) then
    { reg with nodes := reg.nodes.map (fun t => if t.id = n.id then n else t) }
  else
    { reg with nodes := reg.nodes ++ [n] }

/-- Modelled from the spec: `MdnsRegistry::get_node` — lookup by `id`. -/
def get_node (reg : MdnsRegistry) (id : String) : Option NodeRecord :=
  reg.nodes.find? (fun n => decide (n.id = id))

/-- The DNS answer records the mDNS service handles (spec §3); names are
modelled as their display strings, A-record payloads as 4 byte values. -/
inductive DnsAnswer
  | A (name : String) (ttl : Nat) (ip : List Nat)
  | PTR (name : String) (ttl : Nat) (ptr_name : String)
  | SRV (name : String) (ttl : Nat) (priority : Nat) (weight : Nat)
        (port : Nat) (target : String)
deriving DecidableEq, Repr

/-- Embeds `MdnsService::link_service_to_node`: trim the service's
`node_id`, fetch (or create with IP `0.0.0.0`) the node, add the service id
to the node's list if missing, and upsert the node. -/
def link_service_to_node (reg : MdnsRegistry) (service : ServiceRecord) :
    MdnsRegistry :=
  let node_id := trim_end_matches_dot service.node_id
  let node :=
    match get_node reg node_id with
    | some n => n
    | none => ⟨node_id, "0.0.0.0", service.ttl, []⟩
  let node2 :=
    if service.id ∈ node.services then node
    else { node with services := node.services ++ [service.id] }
  add_node reg node2

/-- Embeds `MdnsService::register_local_service`: build the record —
`origin` and `node_id` are both the caller's `origin`, untrimmed — add it
to the registry and link it to its node. -/
def register_local_service (reg : MdnsRegistry) (id service_type : String)
    (port : Nat) (ttl : Option Nat) (origin : String) : MdnsRegistry :=
  let service : ServiceRecord :=
    ⟨id, service_type, port, ttl, origin, some 0, some 0, origin⟩
  link_service_to_node (add_service reg service) service

/-- Embeds `MdnsService::register_default_node_service`: the default
service id is `trim_end(origin) ++ "." ++ trim_start(default_service_type)`;
`origin` and `node_id` are the untrimmed origin; port 5353 and ttl
`u32::MAX`. -/
def register_default_node_service (reg : MdnsRegistry) (origin : Option String)
    (default_service_type : String) : MdnsRegistry :=
  let node_origin := origin.getD "UnknownOrigin.local"
  let default_id :=
    trim_end_matches_dot node_origin ++ "." ++
      trim_start_matches_dot default_service_type
  let service : ServiceRecord :=
    ⟨default_id, default_service_type, 5353, some (2 ^ 32 - 1), node_origin,
      some 0, some 0, node_origin⟩
  link_service_to_node (add_service reg service) service

/-- Embeds `MdnsService::add_node_to_registry`: trim the id; report an IP
conflict (and change nothing) when another node already holds the IP;
update the node's IP and ttl **only when its stored IP differs**; create
the node when absent. -/
def add_node_to_registry (reg : MdnsRegistry) (id ip_address : String)
    (ttl : Option Nat) : Except String MdnsRegistry :=
  let normalized_id := trim_end_matches_dot id
  if reg.nodes.any (fun n => decide (n.ip_address = ip_address ∧ n.id ≠ normalized_id)) then
    .error "IP conflict"
  else
    match reg.nodes.find? (fun n => decide (n.id = normalized_id)) with
    | some existing =>
      if existing.ip_address ≠ ip_address then
        .ok (add_node reg { existing with ip_address := ip_address, ttl := ttl })
      else
        .ok reg
    | none =>
      .ok (add_node reg ⟨normalized_id, ip_address, ttl, []⟩)

/-- Embeds the SRV arm of `MdnsService::process_response`: the service
record's `origin` and `node_id` are the SRV target trimmed of trailing
dots; the record is upserted and linked. -/
def process_srv_answer (reg : MdnsRegistry) (name : String) (ttl : Nat)
    (priority weight port : Nat) (target : String) : MdnsRegistry :=
  let srv_origin := trim_end_matches_dot target
  let service : ServiceRecord :=
    ⟨name, extract_service_type name, port, some ttl, srv_origin,
      some priority, some weight, srv_origin⟩
  link_service_to_node (add_service reg service) service

/-- Embeds `MdnsService::process_response`: nothing happens unless the
source address is IPv4 (`src = some srcIp`); A answers upsert the node
keyed by the trimmed record name with the **source** IP (per-answer errors
are logged and skipped); SRV answers upsert a service; other answers are
ignored. -/
def process_response (reg : MdnsRegistry) (answers : List DnsAnswer)
    (src : Option String) : MdnsRegistry :=
  match src with
  | none => reg
  | some srcIp =>
    answers.foldl
      (fun acc a =>
        match a with
        | .A name ttl _ip =>
          match add_node_to_registry acc name srcIp (some ttl) with
          | .ok acc2 => acc2
          | .error _ => acc
        | .SRV name ttl priority weight port target =>
          process_srv_answer acc name ttl priority weight port target
        | .PTR _ _ _ => acc)
      reg

/-- The registry-mutating operations reachable through the `MdnsService`
API that insert or change service records. -/
inductive RegistryOp
  | regDefault (origin : Option String) (default_service_type : String)
  | regLocal (id service_type : String) (port : Nat) (ttl : Option Nat)
      (origin : String)
  | response (answers : List DnsAnswer) (src : Option String)

/-- Dispatch one `RegistryOp` to the corresponding service operation. -/
def applyRegistryOp (reg : MdnsRegistry) (op : RegistryOp) : MdnsRegistry :=
  match op with
  | .regDefault origin dst => register_default_node_service reg origin dst
  | .regLocal id st port ttl origin => register_local_service reg id st port ttl origin
  | .response answers src => process_response reg answers src

theorem add_service_forall {P : ServiceRecord → Prop} (reg : MdnsRegistry)
    (s : ServiceRecord) (hreg : ∀ t ∈ reg.services, P t) (hs : P s) :
    ∀ t ∈ (add_service reg s).services, P t := by
  intro t ht
  unfold add_service at ht
  split at ht
  · simp only [List.mem_map] at ht
    obtain ⟨u, hu, hut⟩ := ht
    by_cases h : u.id = s.id
    · rw [if_pos h] at hut
      exact hut ▸ hs
    · rw [if_neg h] at hut
      exact hut ▸ hreg u hu
  · simp only [List.mem_append, List.mem_singleton] at ht
    rcases ht with h | h
    · exact hreg t h
    · exact h ▸ hs

theorem add_node_services (reg : MdnsRegistry) (n : NodeRecord) :
    (add_node reg n).services = reg.services := by
  unfold add_node
  split <;> rfl

theorem link_service_to_node_services (reg : MdnsRegistry) (s : ServiceRecord) :
    (link_service_to_node reg s).services = reg.services := by
  unfold link_service_to_node
  rw [add_node_services]

theorem add_node_to_registry_services (reg : MdnsRegistry) (id ip : String)
    (ttl : Option Nat) (reg2 : MdnsRegistry)
    (h : add_node_to_registry reg id ip ttl = .ok reg2) :
    reg2.services = reg.services := by
  unfold add_node_to_registry at h
  dsimp only at h
  split at h
  · exact absurd h (by simp)
  · split at h
    · split at h
      · cases h
        rw [add_node_services]
      · cases h
        rfl
    · cases h
      rw [add_node_services]

/-- Every service record ever inserted stores `node_id = origin` verbatim:
this is the invariant `applyRegistryOp` actually preserves. -/
def nodeIdEqOrigin (reg : MdnsRegistry) : Prop :=
  ∀ s ∈ reg.services, s.node_id = s.origin

theorem nodeIdEqOrigin_apply (reg : MdnsRegistry) (op : RegistryOp)
    (h : nodeIdEqOrigin reg) : nodeIdEqOrigin (applyRegistryOp reg op) := by
  cases op with
  | regDefault origin dst =>
    intro t ht
    rw [applyRegistryOp, register_default_node_service,
      link_service_to_node_services] at ht
    exact add_service_forall reg _ h rfl t ht
  | regLocal id st port ttl origin =>
    intro t ht
    rw [applyRegistryOp, register_local_service,
      link_service_to_node_services] at ht
    exact add_service_forall reg _ h rfl t ht
  | response answers src =>
    rw [applyRegistryOp]
    cases src with
    | none => simpa only [process_response] using h
    | some srcIp =>
      simp only [process_response]
      induction answers generalizing reg with
      | nil => exact h
      | cons a rest ih =>
        rw [List.foldl_cons]
        cases a with
        | A name ttl ip =>
          rcases hok : add_node_to_registry reg name srcIp (some ttl) with e | reg2
          · simp only [hok]
            exact ih reg h
          · simp only [hok]
            refine ih reg2 ?_
            intro t ht
            rw [add_node_to_registry_services reg name srcIp (some ttl) reg2 hok] at ht
            exact h t ht
        | PTR name ttl ptr => exact ih reg h
        | SRV name ttl priority weight port target =>
          refine ih _ ?_
          intro t ht
          unfold process_srv_answer at ht
          rw [link_service_to_node_services] at ht
          exact add_service_forall reg _ h rfl t ht

/-- C5 counterexample: registering a local service whose `origin` ends in a
dot stores `node_id = origin` untrimmed, so the claimed invariant
`node_id = trim_trailing_dot(origin)` fails on that record. -/
theorem register_local_service_keeps_trailing_dot :
    ¬ (∀ s ∈ (register_local_service emptyRegistry "Service123.local"
          "_custom._tcp.local." 8080 (some 300) "TestNode.local.").services,
        s.node_id = trim_end_matches_dot s.origin) := by
  decide

/-- C5 (amended).  Under every sequence of registry updates performed
through the `MdnsService` operations (default registration, local
registration, response processing), every observable `ServiceRecord`
satisfies `node_id = origin` — the origin string stored verbatim.  When the
caller-supplied origin carries no trailing dot this coincides with the
spec's `node_id = trim_trailing_dot(origin)`; records discovered from SRV
answers always satisfy the spec's form because their origin is the SRV
target already trimmed.  With a trailing dot, local registration violates
the claimed form (see the counterexample). -/
theorem registry_service_node_id_eq_origin (ops : List RegistryOp)
    (s : ServiceRecord)
    (hs : s ∈ (ops.foldl applyRegistryOp emptyRegistry).services) :
    s.node_id = s.origin := by
  suffices h : nodeIdEqOrigin (ops.foldl applyRegistryOp emptyRegistry) from h s hs
  have hstep : ∀ (l : List RegistryOp) (reg : MdnsRegistry), nodeIdEqOrigin reg →
      nodeIdEqOrigin (l.foldl applyRegistryOp reg) := by
    intro l
    induction l with
    | nil => exact fun reg h => h
    | cons op rest ih =>
      intro reg h
      exact ih _ (nodeIdEqOrigin_apply reg op h)
  exact hstep ops emptyRegistry (by intro s hs; simp [emptyRegistry] at hs)

/-- Witness for C5 (amended): the invariant evaluated on a concrete update
sequence containing a trailing-dot origin. -/
theorem registry_service_node_id_eq_origin_witness :
    (⟨"Service123.local", "_custom._tcp.local.", 8080, some 300,
        "TestNode.local.", some 0, some 0, "TestNode.local."⟩ : ServiceRecord) ∈
      (([RegistryOp.regLocal "Service123.local" "_custom._tcp.local." 8080
          (some 300) "TestNode.local."]).foldl applyRegistryOp emptyRegistry).services ∧
    (⟨"Service123.local", "_custom._tcp.local.", 8080, some 300,
        "TestNode.local.", some 0, some 0, "TestNode.local."⟩ : ServiceRecord).node_id =
      (⟨"Service123.local", "_custom._tcp.local.", 8080, some 300,
        "TestNode.local.", some 0, some 0, "TestNode.local."⟩ : ServiceRecord).origin :=
  ⟨by decide,
    registry_service_node_id_eq_origin
      [RegistryOp.regLocal "Service123.local" "_custom._tcp.local." 8080
        (some 300) "TestNode.local."]
      ⟨"Service123.local", "_custom._tcp.local.", 8080, some 300,
        "TestNode.local.", some 0, some 0, "TestNode.local."⟩ (by decide)⟩

theorem find_map_upsert (l : List NodeRecord) (n : NodeRecord)
    (h : l.any (fun t => decide (t.id = n.id)) = true) :
    (l.map (fun t => if t.id = n.id then n else t)).find?
      (fun t => decide (t.id = n.id)) = some n := by
  induction l with
  | nil => simp at h
  | cons a l ih =>
    simp only [List.map_cons]
    by_cases ha : a.id = n.id
    · rw [if_pos ha]
      simp
    · rw [if_neg ha]
      rw [List.find?_cons_of_neg _ (by simp [ha])]
      apply ih
      simp only [List.any_cons, decide_eq_true_eq] at h
      rcases Bool.or_eq_true_iff.mp h with h1 | h1
      · exact absurd (of_decide_eq_true h1) ha
      · exact h1

theorem find_append_right (l : List NodeRecord) (n : NodeRecord)
    (h : l.any (fun t => decide (t.id = n.id)) = false) :
    (l ++ [n]).find? (fun t => decide (t.id = n.id)) = some n := by
  induction l with
  | nil => simp
  | cons a l ih =>
    simp only [List.any_cons, Bool.or_eq_false_iff] at h
    rw [List.cons_append, List.find?_cons_of_neg _ (by simp_all), ih h.2]

theorem get_node_add_node (reg : MdnsRegistry) (n : NodeRecord) :
    get_node (add_node reg n) n.id = some n := by
  unfold get_node add_node
  split
  · exact find_map_upsert reg.nodes n (by assumption)
  · next h => exact find_append_right reg.nodes n (by simpa using h)

/-- C6 counterexample: the registry already holds the node
`TestNode.local` with IP `192.168.1.100` and ttl 100; an A answer for
`TestNode.local.` with ttl 300 arriving from source `192.168.1.100` leaves
the stored ttl at 100 — the code skips the update entirely when the stored
IP equals the source IP, while the claim says the ttl is set to the A
record's ttl (300). -/
theorem process_response_A_keeps_old_ttl :
    get_node (process_response ⟨[], [⟨"TestNode.local", "192.168.1.100", some 100, []⟩]⟩
        [DnsAnswer.A "TestNode.local." 300 [192, 168, 1, 100]] (some "192.168.1.100"))
      "TestNode.local" = some ⟨"TestNode.local", "192.168.1.100", some 100, []⟩ ∧
    (some 100 : Option Nat) ≠ some 300 :=
  ⟨by decide, by decide⟩

/-- C6 (amended).  For an A answer from an IPv4 source with no conflicting
node (no other node already holding the source IP), `process_response`
upserts the node keyed by the record's name with its trailing dot trimmed:
the stored node's `ip_address` is the packet's source IP — never the
4-byte payload of the A record, which the conclusion is independent of —
and its ttl becomes the A record's ttl **only when the node is new or its
stored IP differs from the source**; a node already holding the source IP
is left unchanged, ttl included. -/
theorem process_response_A_upsert (reg : MdnsRegistry) (nm : String)
    (payload : List Nat) (ttl : Nat) (src : String)
    (hnoconf : ∀ n ∈ reg.nodes, n.ip_address = src → n.id = trim_end_matches_dot nm) :
    ∃ n, get_node (process_response reg [DnsAnswer.A nm ttl payload] (some src))
        (trim_end_matches_dot nm) = some n ∧
      n.ip_address = src ∧
      n.ttl = (match get_node reg (trim_end_matches_dot nm) with
               | some m => if m.ip_address = src then m.ttl else some ttl
               | none => some ttl) := by
  have hconf : (reg.nodes.any
      (fun n => decide (n.ip_address = src ∧ n.id ≠ trim_end_matches_dot nm))) = false := by
    rw [List.any_eq_false]
    intro n hn
    simp only [decide_eq_true_eq, not_and, not_not]
    exact hnoconf n hn
  rcases hfind : reg.nodes.find? (fun n => decide (n.id = trim_end_matches_dot nm))
    with _ | m
  · have hA : add_node_to_registry reg nm src (some ttl) =
        .ok (add_node reg ⟨trim_end_matches_dot nm, src, some ttl, []⟩) := by
      unfold add_node_to_registry
      dsimp only
      rw [hconf, hfind]
      simp
    refine ⟨⟨trim_end_matches_dot nm, src, some ttl, []⟩, ?_, rfl, ?_⟩
    · simp only [process_response, List.foldl_cons, List.foldl_nil, hA]
      exact get_node_add_node reg _
    · simp only [get_node, hfind]
  · have hmid : m.id = trim_end_matches_dot nm := by
      have := List.find?_some hfind
      simpa using this
    by_cases hip : m.ip_address = src
    · have hA : add_node_to_registry reg nm src (some ttl) = .ok reg := by
        unfold add_node_to_registry
        dsimp only
        rw [hconf, hfind]
        simp [hip]
      refine ⟨m, ?_, hip, ?_⟩
      · simp only [process_response, List.foldl_cons, List.foldl_nil, hA]
        simp only [get_node, hfind]
      · simp only [get_node, hfind, if_pos hip]
    · have hA : add_node_to_registry reg nm src (some ttl) =
          .ok (add_node reg { m with ip_address := src, ttl := some ttl }) := by
        unfold add_node_to_registry
        dsimp only
        rw [hconf, hfind]
        simp [hip]
      refine ⟨{ m with ip_address := src, ttl := some ttl }, ?_, rfl, ?_⟩
      · simp only [process_response, List.foldl_cons, List.foldl_nil, hA]
        rw [← hmid]
        exact get_node_add_node reg _
      · simp only [get_node, hfind, if_neg hip]

/-- Witness for C6 (amended): the upsert theorem applied to an empty
registry, a dotted record name and a concrete source IP. -/
theorem process_response_A_upsert_witness :
    (∀ n ∈ emptyRegistry.nodes, n.ip_address = "192.168.1.100" →
      n.id = trim_end_matches_dot "TestNode.local.") ∧
    ∃ n, get_node (process_response emptyRegistry
        [DnsAnswer.A "TestNode.local." 300 [9, 9, 9, 9]] (some "192.168.1.100"))
        (trim_end_matches_dot "TestNode.local.") = some n ∧
      n.ip_address = "192.168.1.100" ∧
      n.ttl = (match get_node emptyRegistry (trim_end_matches_dot "TestNode.local.") with
               | some m => if m.ip_address = "192.168.1.100" then m.ttl else some 300
               | none => some 300) :=
  ⟨by decide,
    process_response_A_upsert emptyRegistry "TestNode.local." [9, 9, 9, 9] 300
      "192.168.1.100" (by decide)⟩

/- ======================================================================
   Query processing and debounce (mdns_service.rs: process_query)
   ====================================================================== -/

/-- A DNS question; the qname is its label list (spec §3: a DnsName is an
ordered sequence of labels; `process_query` joins them with "."). -/
structure DnsQuestion where
  qname : List String
  qtype : Nat
  qclass : Nat
deriving DecidableEq, Repr

/-- The part of a DNS packet a query response carries: the `flags` word and
the answer records. -/
structure DnsPacket where
  flags : Nat
  answers : List DnsAnswer
deriving DecidableEq, Repr

/-- Rust `u64` wrapping subtraction — the release-mode semantics of
`now - *last_time` in the debounce check (both operands below `2^64`). -/
def u64_sub (a b : Nat) : Nat := (a + 2 ^ 64 - b % 2 ^ 64) % 2 ^ 64

theorem u64_sub_eq (a b : Nat) (hb : b ≤ a) (ha : a < 2 ^ 64) :
    u64_sub a b = a - b := by
  unfold u64_sub
  have hblt : b < 2 ^ 64 := lt_of_le_of_lt hb ha
  rw [Nat.mod_eq_of_lt hblt]
  omega

/-- The `query_cache` (`HashMap<String, u64>` in the source), modelled as
an association list; lookup by key. -/
def cacheLookup (cache : List (String × Nat)) (k : String) : Option Nat :=
  (cache.find? (fun e => decide (e.1 = k))).map (fun e => e.2)

/-- Rust `HashMap::insert`: replace the entry for the key, or add one. -/
def cacheInsert (cache : List (String × Nat)) (k : String) (v : Nat) :
    List (String × Nat) :=
  if cache.any (fun e => decide (e.1 = k)) then
    cache.map (fun e => if e.1 = k then (k, v) else e)
  else
    cache ++ [(k, v)]

/-- Rust `str::ends_with`. -/
def ends_with (s suffix : String) : Bool :=
  suffix.toList.isSuffixOf s.toList

/-- The service filter of `process_query`:
`s.id.trim_end_matches('.').ends_with(requested.trim_end_matches('.'))`. -/
def matching_services (services : List ServiceRecord) (requested : String) :
    List ServiceRecord :=
  services.filter
    (fun s => ends_with (trim_end_matches_dot s.id) (trim_end_matches_dot requested))

/-- The response packet `process_query` builds for the matching services:
flags `0x8400`, and per match a PTR, an SRV targeted at the origin, and —
when the source is IPv4 (`src = some ip`) — an A record for the origin
carrying the source address bytes. -/
def build_response_packet (origin : String) (src : Option (List Nat))
    (ms : List ServiceRecord) : DnsPacket :=
  { flags := 0x8400,
    answers :=
      ms.foldl
        (fun acc s =>
          acc ++
            [DnsAnswer.PTR s.service_type (s.ttl.getD 120) s.id,
             DnsAnswer.SRV s.id (s.ttl.getD 120) (s.priority.getD 0)
               (s.weight.getD 0) s.port origin] ++
            (match src with
             | some ip => [DnsAnswer.A origin (s.ttl.getD 120) ip]
             | none => []))
        [] }

/-- The body of `process_query` after the debounce check passed: set the
cache entry to `now`, collect the matching services, and build (schedule)
a response packet when any match. -/
def process_question_fresh (services : List ServiceRecord)
    (origin : Option String) (src : Option (List Nat)) (now : Nat)
    (requested : String) (cache : List (String × Nat)) :
    List (String × Nat) × Option DnsPacket :=
  let cache2 := cacheInsert cache requested now
  let ms := matching_services services requested
  if ms.isEmpty then (cache2, none)
  else (cache2, some (build_response_packet
    (origin.getD "UnknownOrigin.local") src ms))

/-- Embeds the per-question body of `MdnsService::process_query`: only
PTR/IN questions are considered; a question whose joined qname has a cache
entry younger than 500 ms is dropped (`continue`: cache untouched, no
packet); otherwise the post-debounce body runs. -/
def process_question (services : List ServiceRecord) (origin : Option String)
    (src : Option (List Nat)) (now : Nat) (q : DnsQuestion)
    (cache : List (String × Nat)) :
    List (String × Nat) × Option DnsPacket :=
  if q.qtype = 12 ∧ q.qclass = 1 then
    let requested := String.intercalate "." q.qname
    match cacheLookup cache requested with
    | some last =>
      if u64_sub now last < 500 then (cache, none)
      else process_question_fresh services origin src now requested cache
    | none => process_question_fresh services origin src now requested cache
  else (cache, none)

/-- Embeds `MdnsService::process_query` over the question list of one
packet: the cache is threaded through the questions (the whole loop runs
under one cache lock with a single `now`), and the scheduled response
packets are collected in order. -/
def process_query (services : List ServiceRecord) (origin : Option String)
    (src : Option (List Nat)) (now : Nat) (questions : List DnsQuestion)
    (cache : List (String × Nat)) :
    List (String × Nat) × List DnsPacket :=
  match questions with
  | [] => (cache, [])
  | q :: qs =>
    let r := process_question services origin src now q cache
    let rest := process_query services origin src now qs r.1
    (rest.1, (match r.2 with | some p => [p] | none => []) ++ rest.2)

/-- C7.  A PTR/IN question whose joined qname has a `query_cache` entry of
timestamp `t`, processed at time `now`: when `now - t < 500` ms the
question is dropped — no response packet is built or scheduled — and when
`now - t ≥ 500` and at least one service matches, exactly one response
packet with flags `0x8400` is produced. -/
theorem process_query_debounce (services : List ServiceRecord)
    (origin : Option String) (src : Option (List Nat))
    (q : DnsQuestion) (cache : List (String × Nat)) (now t : Nat)
    (hq : q.qtype = 12) (hc : q.qclass = 1)
    (hl : cacheLookup cache (String.intercalate "." q.qname) = some t)
    (ht : t ≤ now) (hn : now < 2 ^ 64) :
    (now - t < 500 →
      (process_query services origin src now [q] cache).2 = []) ∧
    (500 ≤ now - t →
      matching_services services (String.intercalate "." q.qname) ≠ [] →
      ∃ p, (process_query services origin src now [q] cache).2 = [p] ∧
        p.flags = 0x8400) := by
  have hsub : u64_sub now t = now - t := u64_sub_eq now t ht hn
  constructor
  · intro hlt
    simp only [process_query, process_question, hq, hc, and_self, if_true,
      hl, hsub, hlt, if_pos trivial]
    simp
  · intro hge hmatch
    have hnd : ¬ (u64_sub now t < 500) := by omega
    refine ⟨build_response_packet (origin.getD "UnknownOrigin.local") src
      (matching_services services (String.intercalate "." q.qname)), ?_, rfl⟩
    simp only [process_query, process_question, hq, hc, and_self, if_true, hl]
    rw [hsub]
    simp only [if_neg (by omega : ¬ (now - t < 500)), process_question_fresh]
    rw [if_neg (by simpa using hmatch)]
    simp

/-- Witness for C7: the debounce theorem applied to a concrete service
list, question and cache. -/
theorem process_query_debounce_witness :
    ((⟨["_testservice", "_tcp", "local"], 12, 1⟩ : DnsQuestion).qtype = 12 ∧
     (⟨["_testservice", "_tcp", "local"], 12, 1⟩ : DnsQuestion).qclass = 1 ∧
     cacheLookup [("_testservice._tcp.local", 100)]
       (String.intercalate "." ["_testservice", "_tcp", "local"]) = some 100 ∧
     100 ≤ 700 ∧ 700 < 2 ^ 64) ∧
    (700 - 100 < 500 →
      (process_query [⟨"TestNode.local._testservice._tcp.local", "_testservice._tcp.local",
          5353, some 120, "TestNode.local", some 0, some 0, "TestNode.local"⟩]
        (some "TestNode.local") (some [192, 168, 1, 7]) 700
        [⟨["_testservice", "_tcp", "local"], 12, 1⟩]
        [("_testservice._tcp.local", 100)]).2 = []) ∧
    (500 ≤ 700 - 100 →
      matching_services [⟨"TestNode.local._testservice._tcp.local", "_testservice._tcp.local",
          5353, some 120, "TestNode.local", some 0, some 0, "TestNode.local"⟩]
        (String.intercalate "." ["_testservice", "_tcp", "local"]) ≠ [] →
      ∃ p, (process_query [⟨"TestNode.local._testservice._tcp.local", "_testservice._tcp.local",
          5353, some 120, "TestNode.local", some 0, some 0, "TestNode.local"⟩]
        (some "TestNode.local") (some [192, 168, 1, 7]) 700
        [⟨["_testservice", "_tcp", "local"], 12, 1⟩]
        [("_testservice._tcp.local", 100)]).2 = [p] ∧ p.flags = 0x8400) :=
  ⟨⟨rfl, rfl, by decide, by decide, by decide⟩,
    process_query_debounce
      [⟨"TestNode.local._testservice._tcp.local", "_testservice._tcp.local",
        5353, some 120, "TestNode.local", some 0, some 0, "TestNode.local"⟩]
      (some "TestNode.local") (some [192, 168, 1, 7])
      ⟨["_testservice", "_tcp", "local"], 12, 1⟩
      [("_testservice._tcp.local", 100)] 700 100 rfl rfl (by decide)
      (by decide) (by decide)⟩

/-- C10.  A question dropped by the 500 ms debounce leaves the query cache
completely unchanged — in particular the entry for its qname keeps its old
timestamp, so the debounce window is not refreshed by the drop. -/
theorem process_query_drop_keeps_cache (services : List ServiceRecord)
    (origin : Option String) (src : Option (List Nat))
    (q : DnsQuestion) (cache : List (String × Nat)) (now t : Nat)
    (hq : q.qtype = 12) (hc : q.qclass = 1)
    (hl : cacheLookup cache (String.intercalate "." q.qname) = some t)
    (ht : t ≤ now) (hn : now < 2 ^ 64) (hlt : now - t < 500) :
    (process_query services origin src now [q] cache).1 = cache ∧
    cacheLookup (process_query services origin src now [q] cache).1
      (String.intercalate "." q.qname) = some t := by
  have hsub : u64_sub now t = now - t := u64_sub_eq now t ht hn
  have hfst : (process_query services origin src now [q] cache).1 = cache := by
    simp only [process_query, process_question, hq, hc, and_self, if_true,
      hl, hsub, hlt, if_pos trivial]
  exact ⟨hfst, by rw [hfst]; exact hl⟩

/-- Witness for C10: the frame theorem applied to a concrete dropped
question. -/
theorem process_query_drop_keeps_cache_witness :
    ((⟨["_svc", "local"], 12, 1⟩ : DnsQuestion).qtype = 12 ∧
     (⟨["_svc", "local"], 12, 1⟩ : DnsQuestion).qclass = 1 ∧
     cacheLookup [("_svc.local", 400)]
       (String.intercalate "." ["_svc", "local"]) = some 400 ∧
     400 ≤ 600 ∧ 600 < 2 ^ 64 ∧ 600 - 400 < 500) ∧
    (process_query [] none none 600 [⟨["_svc", "local"], 12, 1⟩]
        [("_svc.local", 400)]).1 = [("_svc.local", 400)] ∧
    cacheLookup (process_query [] none none 600 [⟨["_svc", "local"], 12, 1⟩]
        [("_svc.local", 400)]).1
      (String.intercalate "." ["_svc", "local"]) = some 400 :=
  ⟨⟨rfl, rfl, by decide, by decide, by decide, by decide⟩,
    process_query_drop_keeps_cache [] none none ⟨["_svc", "local"], 12, 1⟩
      [("_svc.local", 400)] 600 400 rfl rfl (by decide) (by decide)
      (by decide) (by decide)⟩

/- ======================================================================
   extract_service_type characterisation (mdns_service.rs)
   ====================================================================== -/

/-- The two-character pattern `"._"` occurs at index `i`. -/
def dotUnderscoreAt (l : List Char) (i : Nat) : Prop :=
  l.get? i = some '.' ∧ l.get? (i + 1) = some '_'

instance (l : List Char) (i : Nat) : Decidable (dotUnderscoreAt l i) := by
  unfold dotUnderscoreAt
  infer_instance

theorem dotUnderscoreAt_zero (c : Char) (rest : List Char) :
    dotUnderscoreAt (c :: rest) 0 ↔ (c = '.' ∧ rest.head? = some '_') := by
  cases rest <;> simp [dotUnderscoreAt]

theorem dotUnderscoreAt_succ (c : Char) (rest : List Char) (j : Nat) :
    dotUnderscoreAt (c :: rest) (j + 1) ↔ dotUnderscoreAt rest j := by
  simp [dotUnderscoreAt]

theorem find_dot_underscore_eq_none (l : List Char)
    (h : ∀ j, ¬ dotUnderscoreAt l j) : find_dot_underscore l = none := by
  induction l with
  | nil => rfl
  | cons c rest ih =>
    rw [find_dot_underscore,
      if_neg (fun h0 => h 0 ((dotUnderscoreAt_zero c rest).mpr h0))]
    rw [ih (fun j hj => h (j + 1) ((dotUnderscoreAt_succ c rest j).mpr hj))]
    rfl

theorem find_dot_underscore_eq_some (l : List Char) (p : Nat)
    (hp : dotUnderscoreAt l p) (hmin : ∀ j < p, ¬ dotUnderscoreAt l j) :
    find_dot_underscore l = some p := by
  induction l generalizing p with
  | nil => simp [dotUnderscoreAt] at hp
  | cons c rest ih =>
    by_cases h0 : c = '.' ∧ rest.head? = some '_'
    · have hp0 : dotUnderscoreAt (c :: rest) 0 := (dotUnderscoreAt_zero c rest).mpr h0
      have hpz : p = 0 := by
        by_contra hne
        exact hmin 0 (Nat.pos_of_ne_zero hne) hp0
      subst hpz
      rw [find_dot_underscore, if_pos h0]
    · cases p with
      | zero => exact absurd ((dotUnderscoreAt_zero c rest).mp hp) h0
      | succ p' =>
        rw [find_dot_underscore, if_neg h0]
        rw [ih p' ((dotUnderscoreAt_succ c rest p').mp hp)
          (fun j hj hdj => hmin (j + 1) (by omega)
            ((dotUnderscoreAt_succ c rest j).mpr hdj))]
        rfl

theorem head?_drop_get? (l : List Char) (n : Nat) :
    (l.drop n).head? = l.get? n := by
  induction l generalizing n with
  | nil => simp
  | cons c rest ih =>
    cases n with
    | zero => simp
    | succ n => simpa using ih n

/-- C8.  `extract_service_type` returns the substring of its argument that
starts at the character after the position of the first occurrence of
`"._"` — so the returned value begins with the underscore — and returns
the argument unchanged when `"._"` does not occur. -/
theorem extract_service_type_spec (s : String) (p : Nat)
    (hp : dotUnderscoreAt s.toList p)
    (hmin : ∀ j < p, ¬ dotUnderscoreAt s.toList j) :
    extract_service_type s = String.mk (s.toList.drop (p + 1)) ∧
    (s.toList.drop (p + 1)).head? = some '_' ∧
    ∀ t : String, (∀ j, ¬ dotUnderscoreAt t.toList j) →
      extract_service_type t = t := by
  refine ⟨?_, ?_, ?_⟩
  · rw [extract_service_type, find_dot_underscore_eq_some s.toList p hp hmin]
  · rw [head?_drop_get?]
    exact hp.2
  · intro t ht
    rw [extract_service_type, find_dot_underscore_eq_none t.toList ht]

/-- Witness for C8: the characterisation applied to the spec's example
`"MyLaptop.local._myDefault._tcp.local."`, whose first `"._"` sits at index
14, giving `"_myDefault._tcp.local."`; the absent-pattern clause gives
`extract_service_type "noUnderscoreHere" = "noUnderscoreHere"`. -/
theorem extract_service_type_spec_witness :
    (dotUnderscoreAt "MyLaptop.local._myDefault._tcp.local.".toList 14 ∧
     ∀ j < 14, ¬ dotUnderscoreAt "MyLaptop.local._myDefault._tcp.local.".toList j) ∧
    (extract_service_type "MyLaptop.local._myDefault._tcp.local." =
        String.mk ("MyLaptop.local._myDefault._tcp.local.".toList.drop 15) ∧
      ("MyLaptop.local._myDefault._tcp.local.".toList.drop 15).head? = some '_' ∧
      ∀ t : String, (∀ j, ¬ dotUnderscoreAt t.toList j) →
        extract_service_type t = t) :=
  ⟨⟨by decide, by decide⟩,
    extract_service_type_spec "MyLaptop.local._myDefault._tcp.local." 14
      (by decide) (by decide)⟩

/- ======================================================================
   HelloStep role negotiation (handshake.rs)
   ====================================================================== -/

/-- The `HandshakeRole` enum. -/
inductive HandshakeRole
  | Unknown
  | Initiator
  | Responder
deriving DecidableEq

/-- The outcome of one read operation on the handshake stream, as the peer
(and the timer) determine it: the bytes delivered by a successful
`read_exact`, a timeout of the 3-second role probe, or an I/O error. -/
inductive ReadOutcome
  | bytes (bs : List Nat)
  | timeout
  | ioError
deriving DecidableEq

/-- The ASCII bytes of `"HELLO"`. -/
def helloBytes : List Nat := [72, 69, 76, 76, 79]

/-- The ASCII bytes of `"HELLO_ACK"`. -/
def helloAckBytes : List Nat := [72, 69, 76, 76, 79, 95, 65, 67, 75]

/-- The result of `HelloStep::execute`: `Ok(bytes)` or a `Generic` error. -/
inductive HelloResult
  | ok (out : List Nat)
  | err (msg : String)
deriving DecidableEq

/-- Embeds `HelloStep::execute`.  `reads k` is the outcome of the `k`-th
read performed on the stream; `fuel` bounds the recursion depth observed
(the source recursion has **no** such bound, so `none` means the source
recursed past the given depth without returning).  From `Unknown`:
`"HELLO"` ⇒ back off and re-enter `Unknown`; timeout ⇒ become `Initiator`;
other bytes ⇒ generic error; I/O error ⇒ generic error.  `Initiator`
writes `"HELLO"` and requires `"HELLO_ACK"`.  `Responder` reads 5 bytes;
`"HELLO"` ⇒ back off and re-enter `Unknown`; otherwise answer
`"HELLO_ACK"` and succeed. -/
def hello_execute (reads : Nat → ReadOutcome) :
    Nat → Nat → HandshakeRole → Option HelloResult
  | 0, _, _ => none
  | fuel + 1, pos, role =>
    match role with
    | .Unknown =>
      match reads pos with
      | .bytes bs =>
        if bs = helloBytes then hello_execute reads fuel (pos + 1) .Unknown
        else some (.err "Unknown role detection error")
      | .timeout => hello_execute reads fuel (pos + 1) .Initiator
      | .ioError => some (.err "Error determining role")
    | .Initiator =>
      match reads pos with
      | .bytes bs =>
        if bs = helloAckBytes then some (.ok [])
        else some (.err "Invalid HELLO_ACK response")
      | _ => some (.err "Failed to read HELLO_ACK")
    | .Responder =>
      match reads pos with
      | .bytes bs =>
        if bs = helloBytes then hello_execute reads fuel (pos + 1) .Unknown
        else some (.ok [])
      | _ => some (.err "Failed to read HELLO")

/-- C9 evidence.  When every role-probe read delivers `"HELLO"` — two
peers colliding on every attempt — `HelloStep::execute` from `Unknown`
never returns within any recursion depth: the simultaneous-open retry
path (role reset to `Unknown`, recursive `execute`) has no retry cap in
the source, so the step can loop forever, contradicting the claim that
the retries are bounded and the step terminates for every peer input. -/
theorem hello_execute_all_hello_diverges :
    ∀ (fuel pos : Nat),
      hello_execute (fun _ => ReadOutcome.bytes helloBytes) fuel pos
        HandshakeRole.Unknown = none := by
  intro fuel
  induction fuel with
  | zero => intro pos; rfl
  | succ n ih =>
    intro pos
    simp only [hello_execute, if_pos rfl]
    exact ih (pos + 1)

end Nautilus
